import Mathlib

/-!
Verification of the rule-processing pipeline in `scripts/process_rules.py`.

Strings are modelled as `List Char`; every function below is a direct
translation of the corresponding Python function, restricted to the ASCII
behaviour of Python's `str.strip`, `re` whitespace class `[ \t\n\r\x0b\x0c]`,
`str.upper` / `str.lower` and `str.isdigit` (all inputs of interest are
ASCII).
-/

namespace ProcessRules

open scoped List

abbrev LChar := List Char

abbrev Token := LChar × LChar

/-- Convenience converter from string literals. -/
def toL (s : String) : LChar := s.toList

/-- The ASCII whitespace class used by Python's `str.strip` and `re` `\s`. -/
def isPySpace (c : Char) : Bool :=
  c == ' ' || c == '\t' || c == '\n' || c == '\r' || c == '\x0b' || c == '\x0c'

/-- Left strip, as in Python `str.lstrip()`. -/
def stripL (l : LChar) : LChar := l.dropWhile isPySpace

/-- Right strip, as in Python `str.rstrip()`. -/
def stripR (l : LChar) : LChar := (l.reverse.dropWhile isPySpace).reverse

/-- Python `str.strip()`. -/
def strip (l : LChar) : LChar := stripR (stripL l)

/-- Does `l` start with `p`? (Python `str.startswith`.) -/
def startsWithL (p l : LChar) : Bool := l.take p.length == p

/-- Is `p` a contiguous substring of `l`? (Python `in` on strings.) -/
def containsSub (p : LChar) : LChar → Bool
  | [] => p.isEmpty
  | c :: t => startsWithL p (c :: t) || containsSub p t

/-- `BAD_PATTERNS` from the source. -/
def badPatterns : List LChar :=
  [ toL "DOMAIN,this_ruleset_is_made_by_sukkaw.ruleset.skk.moe",
    toL "7h1s_rul35et_i5_mad3_by_5ukk4w-ruleset.skk.moe",
    toL "chat.z.ai" ]

/-- `is_bad_line` from the source: empty line, line containing a bad
pattern, or line whose stripped form starts with a hash mark. -/
def is_bad_line (line : LChar) : Bool :=
  line.isEmpty || badPatterns.any (fun p => containsSub p line) ||
    startsWithL [ '#' ] (strip line)

/-- Scanner for the regex part `\s*#` after the first whitespace char:
skip whitespace, then require a hash mark. -/
def afterWs : LChar → Bool
  | [] => false
  | c :: t => if isPySpace c then afterWs t else c == '#'

/-- Does the list start with a match of the regex `\s+#`? -/
def wsThenHash : LChar → Bool
  | [] => false
  | c :: t => isPySpace c && afterWs t

/-- `re.split(r'\s+#', line, 1)[0]`: the part of the line before the first
occurrence of whitespace-then-hash. -/
def stripComment : LChar → LChar
  | [] => []
  | c :: t => if wsThenHash (c :: t) then [] else c :: stripComment t

/-- The comment-stripped and whitespace-trimmed remainder of a line
(the reassignment `line = re.split(r'\s+#', line, 1)[0].strip()`). -/
def cleanLine (line : LChar) : LChar := strip (stripComment line)

/-- Alternatives of the filter regex
`IP|IP-CIDR|GEOIP|PORT|PROXY|PROCESS|USER-AGENT|FINAL`. -/
def ipPatterns : List LChar :=
  [ toL "IP", toL "IP-CIDR", toL "GEOIP", toL "PORT", toL "PROXY",
    toL "PROCESS", toL "USER-AGENT", toL "FINAL" ]

/-- Python `str.upper` (ASCII). -/
def toUpperL (l : LChar) : LChar := l.map Char.toUpper

/-- Python `str.lower` (ASCII). -/
def toLowerL (l : LChar) : LChar := l.map Char.toLower

/-- The part before the first comma (`line.split(',', 1)[0]`). -/
def beforeComma : LChar → LChar
  | [] => []
  | c :: t => if c == ',' then [] else c :: beforeComma t

/-- The part after the first comma (`line.split(',', 1)[1]`). -/
def afterComma : LChar → LChar
  | [] => []
  | c :: t => if c == ',' then t else afterComma t

/-- Tail scanner for the anchored regex `[0-9]+X`: digits already begun,
accept the stop character or continue through digits. -/
def restDigitsThen (stop : Char) : LChar → Bool
  | [] => false
  | c :: t => c == stop || (c.isDigit && restDigitsThen stop t)

/-- Anchored match of `[0-9]+X` at the start of the list: one or more
digits followed by the stop character. -/
def startDigitsThen (stop : Char) : LChar → Bool
  | [] => false
  | c :: t => c.isDigit && restDigitsThen stop t

/-- `extract_domain_token` from the source.  The Python locals `line`
(after reassignment), `left` and `domain` are written out as
`cleanLine line`, `strip (beforeComma (cleanLine line))` and
`strip (afterComma (cleanLine line))`. -/
def extract_domain_token (line : LChar) : Option Token :=
  if (strip line).isEmpty then none
  else if is_bad_line (cleanLine line) then none
  else if (cleanLine line).contains ',' then
    if ipPatterns.any
        (fun p => containsSub p (toUpperL (strip (beforeComma (cleanLine line))))) then none
    else if startDigitsThen '.' (strip (afterComma (cleanLine line))) ||
        startDigitsThen ':' (strip (afterComma (cleanLine line))) then none
    else some (toUpperL (strip (beforeComma (cleanLine line))),
               strip (afterComma (cleanLine line)))
  else if (cleanLine line).contains ' ' || (cleanLine line).contains '/' ||
      (cleanLine line).contains ':' then none
  else some (toL "DOMAIN", cleanLine line)

/-- One iteration of the filtering loop in `merge_and_write`: the
pre-check `is_bad_line(ln)` followed by `extract_domain_token(ln)`. -/
def classifyKeep (line : LChar) : Option Token :=
  if is_bad_line line then none else extract_domain_token line

/-- The deduplication key `(t.lower(), d.lower())`. -/
def keyOf (t : Token) : LChar × LChar := (toLowerL t.1, toLowerL t.2)

/-- The deduplication loop of `merge_and_write`, with the `seen` set
modelled as a list of keys. -/
def dedupAux : List (LChar × LChar) → List Token → List Token
  | _, [] => []
  | seen, t :: rest =>
    if seen.contains (keyOf t) then dedupAux seen rest
    else t :: dedupAux (keyOf t :: seen) rest

/-- The merge pipeline of `merge_and_write` on a list of raw lines:
filter and classify each line, then deduplicate preserving order. -/
def mergeTokens (lines : List LChar) : List Token :=
  dedupAux [] (lines.filterMap classifyKeep)

/-- `to_surge_line` from the source. -/
def to_surge_line (token domain : LChar) : LChar := token ++ ',' :: domain

/-- The Quantumult X type mapping dictionary. -/
def qxMapping : List (LChar × LChar) :=
  [ (toL "DOMAIN-SUFFIX", toL "host-suffix"),
    (toL "DOMAIN", toL "host"),
    (toL "DOMAIN-KEYWORD", toL "host-keyword"),
    (toL "DOMAIN-WILDCARD", toL "host-wildcard") ]

/-- `to_qx_line` from the source: `mapping.get(token, token.lower())`. -/
def to_qx_line (token domain : LChar) : LChar :=
  (match qxMapping.lookup token with
   | some v => v
   | none => toLowerL token) ++ ',' :: domain

/-- Python `'\n'.join(lines)`. -/
def joinNl : List LChar → LChar
  | [] => []
  | [l] => l
  | l :: rest => l ++ '\n' :: joinNl rest

/-- The Surge output content: joined lines plus a trailing newline. -/
def renderSurge (tokens : List Token) : LChar :=
  joinNl (tokens.map fun t => to_surge_line t.1 t.2) ++ [ '\n' ]

/-- The Quantumult X output content: joined lines plus a trailing newline. -/
def renderQX (tokens : List Token) : LChar :=
  joinNl (tokens.map fun t => to_qx_line t.1 t.2) ++ [ '\n' ]

/-- Splitting a rendered output back into lines on every newline
character (Python `content.split('\n')`). -/
def splitNl : LChar → List LChar
  | [] => [ [] ]
  | c :: t =>
    if c == '\n' then [] :: splitNl t
    else
      match splitNl t with
      | [] => [ [ c ] ]
      | h :: r => (c :: h) :: r

/-! ### Substring, digit-run and comma-split characterizations -/

theorem contains_iff_mem {α : Type} [BEq α] [LawfulBEq α] {a : α} {l : List α} :
    l.contains a = true ↔ a ∈ l := List.elem_iff

theorem startsWithL_iff (p l : LChar) : startsWithL p l = true ↔ p <+: l := by
  rw [startsWithL, beq_iff_eq, List.prefix_iff_eq_take, eq_comm]

theorem containsSub_iff (p l : LChar) : containsSub p l = true ↔ p <:+: l := by
  induction l with
  | nil => simp [containsSub, List.isEmpty_iff]
  | cons c t ih =>
    rw [containsSub, Bool.or_eq_true, startsWithL_iff, ih, List.infix_cons_iff]

/-- Specification-level reading of the anchored regex `[0-9]+X`: the list
decomposes as one or more digits, the stop character, then anything. -/
def DigitsThenP (stop : Char) (l : LChar) : Prop :=
  ∃ ds rest, l = ds ++ stop :: rest ∧ ds ≠ [] ∧ ∀ c ∈ ds, c.isDigit = true

theorem restDigitsThen_iff (stop : Char) (l : LChar) :
    restDigitsThen stop l = true ↔
      ∃ ds rest, l = ds ++ stop :: rest ∧ ∀ c ∈ ds, c.isDigit = true := by
  induction l with
  | nil =>
    simp only [restDigitsThen]
    constructor
    · intro h; exact absurd h (by decide)
    · rintro ⟨ds, rest, h, _⟩
      cases (List.append_eq_nil.mp h.symm).2
  | cons c t ih =>
    rw [restDigitsThen, Bool.or_eq_true, Bool.and_eq_true, beq_iff_eq, ih]
    constructor
    · rintro (rfl | ⟨hd, ds, rest, rfl, hds⟩)
      · exact ⟨[], t, rfl, by simp⟩
      · exact ⟨c :: ds, rest, rfl, by simpa using ⟨hd, hds⟩⟩
    · rintro ⟨ds, rest, h, hds⟩
      cases ds with
      | nil =>
        rw [List.nil_append] at h
        injection h with h1 h2
        exact Or.inl h1
      | cons d ds' =>
        rw [List.cons_append] at h
        injection h with h1 h2
        subst h1
        exact Or.inr ⟨hds c (by simp), ds', rest, h2, fun x hx => hds x (by simp [hx])⟩

theorem startDigitsThen_iff (stop : Char) (l : LChar) :
    startDigitsThen stop l = true ↔ DigitsThenP stop l := by
  cases l with
  | nil =>
    simp only [startDigitsThen, DigitsThenP]
    constructor
    · intro h; exact absurd h (by decide)
    · rintro ⟨ds, rest, h, _, _⟩
      cases (List.append_eq_nil.mp h.symm).2
  | cons c t =>
    rw [startDigitsThen, Bool.and_eq_true, restDigitsThen_iff]
    constructor
    · rintro ⟨hc, ds, rest, rfl, hds⟩
      exact ⟨c :: ds, rest, rfl, by simp, by simpa using ⟨hc, hds⟩⟩
    · rintro ⟨ds, rest, h, hne, hds⟩
      cases ds with
      | nil => exact absurd rfl hne
      | cons d ds' =>
        rw [List.cons_append] at h
        injection h with h1 h2
        subst h1
        exact ⟨hds c (by simp), ds', rest, h2, fun x hx => hds x (by simp [hx])⟩

theorem comma_not_mem_beforeComma (l : LChar) : (',' : Char) ∉ beforeComma l := by
  induction l with
  | nil => simp [beforeComma]
  | cons c t ih =>
    by_cases hc : c = ','
    · simp [beforeComma, hc]
    · simp only [beforeComma, beq_iff_eq, if_neg hc, List.mem_cons]
      rintro (h1 | h1)
      · exact hc h1.symm
      · exact ih h1

theorem comma_decomp (l : LChar) (h : (',' : Char) ∈ l) :
    l = beforeComma l ++ ',' :: afterComma l := by
  induction l with
  | nil => cases h
  | cons c t ih =>
    by_cases hc : c = ','
    · subst hc; simp [beforeComma, afterComma]
    · have ht : (',' : Char) ∈ t := by
        rcases List.mem_cons.mp h with h1 | h1
        · exact absurd h1.symm hc
        · exact h1
      simp only [beforeComma, afterComma, beq_iff_eq, if_neg hc, List.cons_append]
      exact congrArg (c :: ·) (ih ht)

theorem beforeComma_append (T d : LChar) (h : (',' : Char) ∉ T) :
    beforeComma (T ++ ',' :: d) = T := by
  induction T with
  | nil => simp [beforeComma]
  | cons c t ih =>
    have hc : ¬ c = ',' := fun hc => h (by simp [hc])
    rw [List.cons_append, beforeComma]
    simp only [beq_iff_eq, if_neg hc]
    rw [ih (fun hm => h (List.mem_cons_of_mem _ hm))]

theorem afterComma_append (T d : LChar) (h : (',' : Char) ∉ T) :
    afterComma (T ++ ',' :: d) = d := by
  induction T with
  | nil => simp [afterComma]
  | cons c t ih =>
    have hc : ¬ c = ','  := fun hc => h (by simp [hc])
    rw [List.cons_append, afterComma]
    simp only [beq_iff_eq, if_neg hc]
    exact ih (fun hm => h (List.mem_cons_of_mem _ hm))

theorem contains_comma_append (T d : LChar) :
    (T ++ ',' :: d).contains ',' = true :=
  contains_iff_mem.mpr (by simp)

/-! ### Structural lemmas about stripping and comment removal -/

theorem stripComment_pre (l : LChar) : stripComment l <+: l := by
  induction l with
  | nil => simp [stripComment]
  | cons c t ih =>
    rw [stripComment]
    split
    · exact List.nil_prefix
    · exact List.cons_prefix_cons.mpr ⟨rfl, ih⟩

theorem stripL_suf (l : LChar) : stripL l <:+ l := List.dropWhile_suffix _

theorem stripR_pre (l : LChar) : stripR l <+: l := by
  rcases List.dropWhile_suffix (l := l.reverse) isPySpace with ⟨t, ht⟩
  refine ⟨t.reverse, ?_⟩
  have h2 := congrArg List.reverse ht
  simpa [stripR, List.reverse_append] using h2

theorem strip_isInf (l : LChar) : strip l <:+: l :=
  ((stripR_pre (stripL l)).isInfix).trans ((stripL_suf l).isInfix)

theorem head_stripL (l : LChar) (c : Char) (h : (stripL l).head? = some c) :
    isPySpace c = false := by
  induction l with
  | nil => simp [stripL] at h
  | cons a t ih =>
    by_cases ha : isPySpace a = true
    · rw [stripL, List.dropWhile_cons_of_pos ha] at h
      exact ih h
    · rw [stripL, List.dropWhile_cons_of_neg ha, List.head?_cons] at h
      injection h with h1
      subst h1
      simpa using ha

theorem stripL_eq_self (l : LChar)
    (h : ∀ c, l.head? = some c → isPySpace c = false) : stripL l = l := by
  cases l with
  | nil => rfl
  | cons a t =>
    have ha := h a (by simp)
    rw [stripL, List.dropWhile_cons_of_neg (by simp [ha])]

theorem stripR_eq_self (l : LChar)
    (h : ∀ c, l.getLast? = some c → isPySpace c = false) : stripR l = l := by
  have h2 : stripL l.reverse = l.reverse :=
    stripL_eq_self _ (fun c hc => h c (by rwa [List.head?_reverse] at hc))
  rw [stripR, show l.reverse.dropWhile isPySpace = l.reverse from h2]
  exact List.reverse_reverse l

theorem head_stripR (l : LChar) (c : Char) (h : (stripR l).head? = some c) :
    l.head? = some c := by
  rcases stripR_pre l with ⟨t, ht⟩
  cases hsr : stripR l with
  | nil => rw [hsr] at h; cases h
  | cons a r =>
    rw [hsr] at h ht
    rw [List.head?_cons] at h
    rw [← ht, List.cons_append, List.head?_cons]
    exact h

theorem getLast_stripR (l : LChar) (c : Char) (h : (stripR l).getLast? = some c) :
    isPySpace c = false := by
  rw [stripR, List.getLast?_reverse] at h
  exact head_stripL _ _ h

theorem head_strip (l : LChar) (c : Char) (h : (strip l).head? = some c) :
    isPySpace c = false :=
  head_stripL _ _ (head_stripR _ _ h)

theorem getLast_strip (l : LChar) (c : Char) (h : (strip l).getLast? = some c) :
    isPySpace c = false :=
  getLast_stripR _ _ h

theorem strip_eq_self (l : LChar)
    (h1 : ∀ c, l.head? = some c → isPySpace c = false)
    (h2 : ∀ c, l.getLast? = some c → isPySpace c = false) : strip l = l := by
  show stripR (stripL l) = l
  rw [stripL_eq_self l h1, stripR_eq_self l h2]

theorem strip_idem (l : LChar) : strip (strip l) = strip l :=
  strip_eq_self _ (fun c h => head_strip l c h) (fun c h => getLast_strip l c h)

theorem afterWs_append (a b : LChar) :
    afterWs (a ++ b) = if a.all isPySpace then afterWs b else afterWs a := by
  induction a with
  | nil => simp [afterWs]
  | cons c t ih =>
    rw [List.cons_append]
    simp only [afterWs, List.all_cons]
    by_cases hc : isPySpace c = true
    · simp [hc, ih]
    · simp only [Bool.not_eq_true] at hc
      simp [hc]

theorem afterWs_all_ws (a : LChar) (h : a.all isPySpace = true) : afterWs a = false := by
  induction a with
  | nil => rfl
  | cons c t ih =>
    simp only [List.all_cons, Bool.and_eq_true] at h
    simp [afterWs, h.1, ih h.2]

theorem afterWs_extend (a b : LChar) (h : afterWs a = true) : afterWs (a ++ b) = true := by
  have hall : ¬ a.all isPySpace = true := fun hc => by
    rw [afterWs_all_ws a hc] at h; cases h
  rw [afterWs_append, if_neg hall]
  exact h

theorem wsThenHash_extend (s y : LChar) (h : wsThenHash s = true) :
    wsThenHash (s ++ y) = true := by
  cases s with
  | nil => simp [wsThenHash] at h
  | cons c t =>
    simp only [wsThenHash, Bool.and_eq_true] at h
    rw [List.cons_append]
    simp only [wsThenHash, Bool.and_eq_true]
    exact ⟨h.1, afterWs_extend t y h.2⟩

theorem noCut_cons_iff (c : Char) (t : LChar) :
    stripComment (c :: t) = c :: t ↔
      wsThenHash (c :: t) = false ∧ stripComment t = t := by
  simp only [stripComment]
  by_cases h : wsThenHash (c :: t) = true
  · rw [if_pos h]
    constructor
    · intro he; simp at he
    · rintro ⟨h1, _⟩; rw [h] at h1; cases h1
  · rw [if_neg h]
    simp only [Bool.not_eq_true] at h
    constructor
    · intro he
      injection he with _ h2
      exact ⟨h, h2⟩
    · rintro ⟨_, h2⟩; rw [h2]

theorem noCut_iff (l : LChar) :
    stripComment l = l ↔ ∀ s, s <:+ l → wsThenHash s = false := by
  induction l with
  | nil =>
    constructor
    · intro _ s hs
      rw [List.suffix_nil.mp hs]
      rfl
    · intro _; rfl
  | cons c t ih =>
    rw [noCut_cons_iff, ih]
    constructor
    · rintro ⟨h1, h2⟩ s hs
      rcases List.suffix_cons_iff.mp hs with rfl | hs'
      · exact h1
      · exact h2 s hs'
    · intro h
      exact ⟨h _ (List.suffix_refl _), fun s hs => h s (List.suffix_cons_iff.mpr (Or.inr hs))⟩

theorem noCut_of_inf (l m : LChar) (hm : m <:+: l) (h : stripComment l = l) :
    stripComment m = m := by
  rw [noCut_iff] at h ⊢
  intro s hs
  by_contra hc
  rw [Bool.not_eq_false] at hc
  rcases hm with ⟨x, y, rfl⟩
  rcases hs with ⟨a, rfl⟩
  have hsuf : (s ++ y) <:+ (x ++ (a ++ s) ++ y) := by
    refine ⟨x ++ a, ?_⟩
    simp [List.append_assoc]
  have h2 := h (s ++ y) hsuf
  rw [wsThenHash_extend s y hc] at h2
  cases h2

theorem stripComment_noCut (l : LChar) :
    stripComment (stripComment l) = stripComment l := by
  induction l with
  | nil => rfl
  | cons c t ih =>
    by_cases h : wsThenHash (c :: t) = true
    · simp [stripComment, h]
    · simp only [Bool.not_eq_true] at h
      have hout : stripComment (c :: t) = c :: stripComment t := by
        simp [stripComment, h]
      rw [hout, noCut_cons_iff]
      refine ⟨?_, ih⟩
      cases hc : isPySpace c with
      | false => simp [wsThenHash, hc]
      | true =>
        have h2 : afterWs t = false := by
          simpa only [wsThenHash, hc, Bool.true_and] using h
        simp only [wsThenHash, hc, Bool.true_and]
        by_contra hcon
        rw [Bool.not_eq_false] at hcon
        rcases stripComment_pre t with ⟨q, hq⟩
        rw [← hq, afterWs_extend _ q hcon] at h2
        cases h2

theorem cleanLine_noCut (line : LChar) :
    stripComment (cleanLine line) = cleanLine line :=
  noCut_of_inf (stripComment line) (cleanLine line)
    (strip_isInf (stripComment line)) (stripComment_noCut line)

theorem cleanLine_strip (line : LChar) : strip (cleanLine line) = cleanLine line :=
  strip_idem _

theorem beforeComma_pre (l : LChar) : beforeComma l <+: l := by
  induction l with
  | nil => simp [beforeComma]
  | cons c t ih =>
    by_cases hc : c = ','
    · simp [beforeComma, hc]
    · simp only [beforeComma, beq_iff_eq, if_neg hc]
      exact List.cons_prefix_cons.mpr ⟨rfl, ih⟩

theorem afterComma_suf (l : LChar) : afterComma l <:+ l := by
  induction l with
  | nil => simp [afterComma]
  | cons c t ih =>
    by_cases hc : c = ','
    · simp only [afterComma, beq_iff_eq, if_pos hc]
      exact List.suffix_cons c t
    · simp only [afterComma, beq_iff_eq, if_neg hc]
      exact ih.trans (List.suffix_cons c t)

/-! ### Character-level facts about `Char.toUpper` -/

theorem toNat_ofNat_small (m : Nat) (h : m < 55296) : (Char.ofNat m).toNat = m := by
  rw [Char.ofNat, dif_pos (Or.inl h)]
  rfl

theorem toUpper_toNat_lower (c : Char) (h1 : 97 ≤ c.toNat) (h2 : c.toNat ≤ 122) :
    c.toUpper.toNat = c.toNat - 32 := by
  rw [Char.toUpper, if_pos ⟨h1, h2⟩]
  exact toNat_ofNat_small _ (by omega)

theorem toUpper_eq_of_not_lower (c : Char) (h : ¬(97 ≤ c.toNat ∧ c.toNat ≤ 122)) :
    c.toUpper = c := by
  rw [Char.toUpper, if_neg h]

theorem toUpper_eq_low (c a : Char) (ha : a.toNat < 65) (h : c.toUpper = a) : c = a := by
  by_cases hc : 97 ≤ c.toNat ∧ c.toNat ≤ 122
  · exfalso
    obtain ⟨hc1, hc2⟩ := hc
    have h2 : c.toUpper.toNat = c.toNat - 32 := toUpper_toNat_lower c hc1 hc2
    rw [h] at h2
    omega
  · rwa [toUpper_eq_of_not_lower c hc] at h

theorem toUpper_eq_low_iff (c a : Char) (ha : a.toNat < 65) : c.toUpper = a ↔ c = a := by
  constructor
  · exact toUpper_eq_low c a ha
  · rintro rfl
    exact toUpper_eq_of_not_lower _ (by omega)

theorem toUpper_idem (c : Char) : c.toUpper.toUpper = c.toUpper := by
  by_cases hc : 97 ≤ c.toNat ∧ c.toNat ≤ 122
  · obtain ⟨hc1, hc2⟩ := hc
    have h2 : c.toUpper.toNat = c.toNat - 32 := toUpper_toNat_lower c hc1 hc2
    apply toUpper_eq_of_not_lower
    omega
  · have h := toUpper_eq_of_not_lower c hc
    rw [h, h]

theorem isPySpace_eq_iff (c : Char) :
    isPySpace c = true ↔
      c = ' ' ∨ c = '\t' ∨ c = '\n' ∨ c = '\r' ∨ c = '\x0b' ∨ c = '\x0c' := by
  simp [isPySpace, or_assoc]

theorem isPySpace_toUpper (c : Char) : isPySpace c.toUpper = isPySpace c := by
  cases h : isPySpace c with
  | true =>
    rcases (isPySpace_eq_iff c).mp h with rfl | rfl | rfl | rfl | rfl | rfl <;> rfl
  | false =>
    by_contra hcon
    rw [Bool.not_eq_false] at hcon
    have h6 := (isPySpace_eq_iff _).mp hcon
    have hc : isPySpace c = true := by
      rcases h6 with h1 | h1 | h1 | h1 | h1 | h1 <;>
        (rw [toUpper_eq_low _ _ (by decide) h1]; decide)
    rw [hc] at h
    cases h

theorem toUpperL_cons (c : Char) (t : LChar) :
    toUpperL (c :: t) = c.toUpper :: toUpperL t := rfl

theorem toUpperL_idem (l : LChar) : toUpperL (toUpperL l) = toUpperL l := by
  rw [toUpperL, toUpperL, List.map_map]
  exact List.map_congr_left (fun c _ => toUpper_idem c)

theorem afterWs_toUpper (l : LChar) : afterWs (toUpperL l) = afterWs l := by
  induction l with
  | nil => rfl
  | cons c t ih =>
    rw [toUpperL_cons]
    simp only [afterWs, isPySpace_toUpper]
    by_cases hc : isPySpace c = true
    · rw [if_pos hc, if_pos hc]
      exact ih
    · rw [if_neg hc, if_neg hc]
      apply Bool.eq_iff_iff.mpr
      simp only [beq_iff_eq]
      exact toUpper_eq_low_iff c '#' (by decide)

theorem wsThenHash_toUpper (l : LChar) : wsThenHash (toUpperL l) = wsThenHash l := by
  cases l with
  | nil => rfl
  | cons c t =>
    rw [toUpperL_cons]
    simp only [wsThenHash, isPySpace_toUpper, afterWs_toUpper]

theorem noCut_toUpper (l : LChar) (h : stripComment l = l) :
    stripComment (toUpperL l) = toUpperL l := by
  induction l with
  | nil => rfl
  | cons c t ih =>
    rw [noCut_cons_iff] at h
    rw [toUpperL_cons, noCut_cons_iff]
    refine ⟨?_, ih h.2⟩
    rw [← toUpperL_cons, wsThenHash_toUpper]
    exact h.1

theorem strip_toUpperL (l : LChar) (h : strip l = l) :
    strip (toUpperL l) = toUpperL l := by
  apply strip_eq_self
  · intro c hc
    rw [toUpperL, List.head?_map] at hc
    cases hl : l.head? with
    | none => rw [hl] at hc; cases hc
    | some a =>
      rw [hl] at hc
      injection hc with hc1
      have ha : isPySpace a = false := head_strip l a (by rw [h]; exact hl)
      rw [← hc1, isPySpace_toUpper]
      exact ha
  · intro c hc
    rw [toUpperL, List.getLast?_map] at hc
    cases hl : l.getLast? with
    | none => rw [hl] at hc; cases hc
    | some a =>
      rw [hl] at hc
      injection hc with hc1
      have ha : isPySpace a = false := getLast_strip l a (by rw [h]; exact hl)
      rw [← hc1, isPySpace_toUpper]
      exact ha

/-! ### Deduplication loop lemmas -/

theorem dedupAux_sub (l : List Token) : ∀ seen, dedupAux seen l <+ l := by
  induction l with
  | nil => intro seen; simp [dedupAux]
  | cons t rest ih =>
    intro seen
    rw [dedupAux]
    split
    · exact (ih seen).trans (List.sublist_cons_self t rest)
    · exact List.Sublist.cons₂ t (ih _)

theorem dedupAux_not_seen (l : List Token) :
    ∀ seen t, t ∈ dedupAux seen l → seen.contains (keyOf t) = false := by
  induction l with
  | nil => intro seen t h; simp [dedupAux] at h
  | cons x rest ih =>
    intro seen t h
    rw [dedupAux] at h
    by_cases hx : seen.contains (keyOf x) = true
    · rw [if_pos hx] at h
      exact ih seen t h
    · rw [if_neg hx] at h
      rcases List.mem_cons.mp h with rfl | h2
      · simpa using hx
      · have h3 := ih _ t h2
        rw [List.contains_cons, Bool.or_eq_false_iff] at h3
        exact h3.2

theorem dedupAux_pair (l : List Token) :
    ∀ seen, (dedupAux seen l).Pairwise (fun a b => keyOf a ≠ keyOf b) := by
  induction l with
  | nil => intro seen; simp [dedupAux]
  | cons x rest ih =>
    intro seen
    rw [dedupAux]
    split
    · exact ih seen
    · refine List.Pairwise.cons ?_ (ih _)
      intro u hu
      have h3 := dedupAux_not_seen rest _ u hu
      rw [List.contains_cons, Bool.or_eq_false_iff] at h3
      exact (beq_eq_false_iff_ne.mp h3.1).symm

theorem dedupAux_complete (l : List Token) :
    ∀ seen t, t ∈ l → seen.contains (keyOf t) = false →
      ∃ u ∈ dedupAux seen l, keyOf u = keyOf t := by
  induction l with
  | nil => intro seen t h _; cases h
  | cons x rest ih =>
    intro seen t h hns
    rw [dedupAux]
    by_cases hx : seen.contains (keyOf x) = true
    · rw [if_pos hx]
      rcases List.mem_cons.mp h with rfl | h2
      · rw [hns] at hx; cases hx
      · exact ih seen t h2 hns
    · rw [if_neg hx]
      by_cases hk : keyOf t = keyOf x
      · exact ⟨x, by simp, hk.symm⟩
      · rcases List.mem_cons.mp h with rfl | h2
        · exact absurd rfl hk
        · have hns2 : (keyOf x :: seen).contains (keyOf t) = false := by
            rw [List.contains_cons, Bool.or_eq_false_iff]
            exact ⟨beq_eq_false_iff_ne.mpr hk, hns⟩
          rcases ih _ t h2 hns2 with ⟨u, hu1, hu2⟩
          exact ⟨u, List.mem_cons_of_mem _ hu1, hu2⟩

theorem dedupAux_first (l : List Token) :
    ∀ seen t, t ∈ dedupAux seen l →
      ∃ l1 l2, l = l1 ++ t :: l2 ∧ ∀ u ∈ l1, keyOf u ≠ keyOf t := by
  induction l with
  | nil => intro seen t h; simp [dedupAux] at h
  | cons x rest ih =>
    intro seen t h
    rw [dedupAux] at h
    by_cases hx : seen.contains (keyOf x) = true
    · rw [if_pos hx] at h
      have hkt := dedupAux_not_seen rest seen t h
      rcases ih seen t h with ⟨l1, l2, rfl, hl1⟩
      refine ⟨x :: l1, l2, rfl, ?_⟩
      intro u hu
      rcases List.mem_cons.mp hu with rfl | hu2
      · intro he
        rw [he] at hx
        rw [hkt] at hx
        cases hx
      · exact hl1 u hu2
    · rw [if_neg hx] at h
      rcases List.mem_cons.mp h with rfl | h2
      · exact ⟨[], rest, rfl, by simp⟩
      · have hkt := dedupAux_not_seen rest _ t h2
        rw [List.contains_cons, Bool.or_eq_false_iff] at hkt
        rcases ih _ t h2 with ⟨l1, l2, rfl, hl1⟩
        refine ⟨x :: l1, l2, rfl, ?_⟩
        intro u hu
        rcases List.mem_cons.mp hu with rfl | hu2
        · exact fun he => (beq_eq_false_iff_ne.mp hkt.1) he.symm
        · exact hl1 u hu2

theorem contains_eq_false_iff {α : Type} [BEq α] [LawfulBEq α] {a : α} {l : List α} :
    l.contains a = false ↔ a ∉ l := by
  constructor
  · intro h hm
    rw [contains_iff_mem.mpr hm] at h
    cases h
  · intro h
    cases hb : l.contains a with
    | false => rfl
    | true => exact absurd (contains_iff_mem.mp hb) h

theorem bad_any_of_inf (line : LChar) (h : ∃ p ∈ badPatterns, p <:+: line) :
    is_bad_line line = true := by
  rcases h with ⟨p, hp, hinf⟩
  rw [is_bad_line]
  have h2 : (badPatterns.any fun p => containsSub p line) = true :=
    List.any_eq_true.mpr ⟨p, hp, (containsSub_iff _ _).mpr hinf⟩
  rw [h2]
  simp

/-! ### Claim theorems -/

/-- C1 counterexample: the raw line contains the bad pattern `chat.z.ai`
only inside its inline-comment portion, yet `extract_domain_token` returns
a token rather than `none` — the claim that the containment test is
applied to the original line before comment stripping fails. -/
theorem c1_counterexample :
    (badPatterns.any fun p => containsSub p (toL "example.com #chat.z.ai")) = true ∧
    extract_domain_token (toL "example.com #chat.z.ai")
      = some (toL "DOMAIN", toL "example.com") :=
  ⟨by decide, by decide⟩

/-- C1 (amended): `extract_domain_token` applies the bad-pattern substring
test to the comment-stripped, trimmed remainder of the line; every line
whose remainder contains a bad pattern is classified `none` (a line whose
bad substring occurs only inside the inline comment may still yield a
token here; it is dropped by the merge pre-check instead). -/
theorem c1_bad_pattern_after_comment_strip (line : LChar)
    (h : ∃ p ∈ badPatterns, p <:+: cleanLine line) :
    extract_domain_token line = none := by
  have hb : is_bad_line (cleanLine line) = true := bad_any_of_inf _ h
  unfold extract_domain_token
  rw [hb]
  simp

theorem c1_witness :
    (∃ p ∈ badPatterns, p <:+: cleanLine (toL "x chat.z.ai")) ∧
    extract_domain_token (toL "x chat.z.ai") = none :=
  ⟨by decide, c1_bad_pattern_after_comment_strip _ (by decide)⟩

/-- C3: a raw line containing any bad pattern anywhere in its original
text is rejected by the merge pre-check, and removing all such lines from
the input leaves the merge output unchanged — no output token derives
from such a line. -/
theorem c3_bad_line_dropped (lines : List LChar) (line : LChar)
    (h : ∃ p ∈ badPatterns, p <:+: line) :
    classifyKeep line = none ∧
    mergeTokens lines =
      mergeTokens (lines.filter fun l => !(badPatterns.any fun p => containsSub p l)) := by
  constructor
  · simp [classifyKeep, bad_any_of_inf line h]
  · rw [mergeTokens, mergeTokens]
    congr 1
    induction lines with
    | nil => rfl
    | cons x rest ih =>
      by_cases hx : (badPatterns.any fun p => containsSub p x) = true
      · have hbx : is_bad_line x = true := by rw [is_bad_line, hx]; simp
        have hcx : classifyKeep x = none := by simp [classifyKeep, hbx]
        rw [List.filter_cons, hx]
        simp only [Bool.not_true, Bool.false_eq_true, if_false]
        rw [List.filterMap_cons, hcx]
        exact ih
      · have hx2 : (badPatterns.any fun p => containsSub p x) = false := by
          simpa using hx
        rw [List.filter_cons, hx2]
        simp only [Bool.not_false, if_true]
        rw [List.filterMap_cons, List.filterMap_cons]
        cases hcx : classifyKeep x with
        | none => exact ih
        | some v => rw [ih]

theorem c3_witness :
    (∃ p ∈ badPatterns, p <:+: toL "chat.z.ai") ∧
    classifyKeep (toL "chat.z.ai") = none ∧
    mergeTokens [ toL "chat.z.ai", toL "DOMAIN,ok.com" ] =
      mergeTokens ([ toL "chat.z.ai", toL "DOMAIN,ok.com" ].filter
        fun l => !(badPatterns.any fun p => containsSub p l)) := by
  have h := c3_bad_line_dropped [ toL "chat.z.ai", toL "DOMAIN,ok.com" ]
    (toL "chat.z.ai") (by decide)
  exact ⟨by decide, h.1, h.2⟩

/-- C4: any two distinct tokens of a merge output differ as
case-insensitive pairs, and Scenario A merges to exactly
`[("DOMAIN", "example.com")]`. -/
theorem c4_dedup_unique (lines : List LChar) :
    (mergeTokens lines).Pairwise
      (fun t1 t2 => (toLowerL t1.1, toLowerL t1.2) ≠ (toLowerL t2.1, toLowerL t2.2)) ∧
    mergeTokens [ toL "DOMAIN,example.com", toL "domain,EXAMPLE.com",
        toL "# comment", toL "" ] = [ (toL "DOMAIN", toL "example.com") ] :=
  ⟨dedupAux_pair _ [], by decide⟩

/-- C5: the merge output is a subsequence of the classified-token stream
(later repeats are dropped without reordering), every classified key is
represented, and each output token occurs at the position of the first
classified token with its case-insensitive key. -/
theorem c5_first_occurrence_order (lines : List LChar) :
    List.Sublist (mergeTokens lines) (lines.filterMap classifyKeep) ∧
    (∀ e ∈ lines.filterMap classifyKeep,
        ∃ u ∈ mergeTokens lines, keyOf u = keyOf e) ∧
    (∀ t ∈ mergeTokens lines,
        ∃ l1 l2, lines.filterMap classifyKeep = l1 ++ t :: l2 ∧
          ∀ u ∈ l1, keyOf u ≠ keyOf t) := by
  refine ⟨dedupAux_sub _ [], ?_, ?_⟩
  · intro e he
    exact dedupAux_complete _ [] e he rfl
  · intro t ht
    exact dedupAux_first _ [] t ht

/-- C9: the merge output is a subsequence of the classified tokens, every
emitted token is identical (including character case) to the first
classified token carrying its key, and lowercasing is used only for the
key set — e.g. a mixed-case domain is emitted verbatim. -/
theorem c9_merge_preserves_case (lines : List LChar) :
    List.Sublist (mergeTokens lines) (lines.filterMap classifyKeep) ∧
    (∀ t ∈ mergeTokens lines,
        ∃ l1 l2, lines.filterMap classifyKeep = l1 ++ t :: l2 ∧
          ∀ u ∈ l1, keyOf u ≠ keyOf t) ∧
    mergeTokens [ toL "DoMaIn,ExAmPle.COM" ] = [ (toL "DOMAIN", toL "ExAmPle.COM") ] := by
  refine ⟨dedupAux_sub _ [], ?_, by decide⟩
  intro t ht
  exact dedupAux_first _ [] t ht

/-- C10: a comma line with an acceptable left side and nothing after the
comma yields a token with empty domain, rendered as `DOMAIN,` in Surge
form and `host,` in Quantumult X form. -/
theorem c10_empty_domain :
    extract_domain_token (toL "DOMAIN,") = some (toL "DOMAIN", []) ∧
    to_surge_line (toL "DOMAIN") [] = toL "DOMAIN," ∧
    to_qx_line (toL "DOMAIN") [] = toL "host," :=
  ⟨by decide, by decide, by decide⟩

/-- C6: on a line surviving the bad-line test and comment stripping whose
remainder contains no comma, classification returns `none` exactly when
the remainder contains a space, slash or colon, and otherwise returns the
token `("DOMAIN", remainder)` unchanged; concretely
`classify "plain.example.com" = ("DOMAIN", "plain.example.com")`. -/
theorem c6_no_comma_branch (line : LChar)
    (h1 : (strip line).isEmpty = false)
    (h2 : is_bad_line (cleanLine line) = false)
    (h3 : (cleanLine line).contains ',' = false) :
    (((' ' : Char) ∈ cleanLine line ∨ ('/' : Char) ∈ cleanLine line ∨
        (':' : Char) ∈ cleanLine line) → extract_domain_token line = none) ∧
    (((' ' : Char) ∉ cleanLine line ∧ ('/' : Char) ∉ cleanLine line ∧
        (':' : Char) ∉ cleanLine line) →
      extract_domain_token line = some (toL "DOMAIN", cleanLine line)) ∧
    extract_domain_token (toL "plain.example.com")
      = some (toL "DOMAIN", toL "plain.example.com") := by
  refine ⟨?_, ?_, by decide⟩
  · intro hmem
    have hc : ((cleanLine line).contains ' ' || (cleanLine line).contains '/' ||
        (cleanLine line).contains ':') = true := by
      rcases hmem with hm | hm | hm
      · simp [hm]
      · simp [hm]
      · simp [hm]
    unfold extract_domain_token
    rw [h1, if_neg Bool.false_ne_true, h2, if_neg Bool.false_ne_true,
        h3, if_neg Bool.false_ne_true, hc, if_pos rfl]
  · intro hno
    have hc : ((cleanLine line).contains ' ' || (cleanLine line).contains '/' ||
        (cleanLine line).contains ':') = true → False := by
      intro hb
      simp only [Bool.or_eq_true] at hb
      rcases hb with (hb3 | hb3) | hb3
      · exact hno.1 (contains_iff_mem.mp hb3)
      · exact hno.2.1 (contains_iff_mem.mp hb3)
      · exact hno.2.2 (contains_iff_mem.mp hb3)
    have hcf : ((cleanLine line).contains ' ' || (cleanLine line).contains '/' ||
        (cleanLine line).contains ':') = false := by
      cases hb : ((cleanLine line).contains ' ' || (cleanLine line).contains '/' ||
          (cleanLine line).contains ':') with
      | false => rfl
      | true => exact absurd (hc hb) (fun h => h)
    unfold extract_domain_token
    rw [h1, if_neg Bool.false_ne_true, h2, if_neg Bool.false_ne_true,
        h3, if_neg Bool.false_ne_true, hcf, if_neg Bool.false_ne_true]

theorem c6_witness :
    (strip (toL "plain.example.com")).isEmpty = false ∧
    is_bad_line (cleanLine (toL "plain.example.com")) = false ∧
    (cleanLine (toL "plain.example.com")).contains ',' = false ∧
    ((((' ' : Char) ∉ cleanLine (toL "plain.example.com") ∧
        ('/' : Char) ∉ cleanLine (toL "plain.example.com") ∧
        (':' : Char) ∉ cleanLine (toL "plain.example.com")) →
      extract_domain_token (toL "plain.example.com")
        = some (toL "DOMAIN", cleanLine (toL "plain.example.com")))) :=
  ⟨by decide, by decide, by decide,
    (c6_no_comma_branch (toL "plain.example.com")
      (by decide) (by decide) (by decide)).2.1⟩

/-- C7: the Quantumult X rendering maps the four `DOMAIN`-family types to
their `host`-family counterparts, falls back to the lowercased type for
any unmapped type, renders each token as `qxType,domain`, joins the lines
with newlines and appends a trailing newline; Scenario E is computed
exactly. -/
theorem c7_qx_render (tokens : List Token) (t d : LChar)
    (hnot : t ∉ qxMapping.map Prod.fst) :
    to_qx_line (toL "DOMAIN-SUFFIX") d = toL "host-suffix" ++ ',' :: d ∧
    to_qx_line (toL "DOMAIN") d = toL "host" ++ ',' :: d ∧
    to_qx_line (toL "DOMAIN-KEYWORD") d = toL "host-keyword" ++ ',' :: d ∧
    to_qx_line (toL "DOMAIN-WILDCARD") d = toL "host-wildcard" ++ ',' :: d ∧
    to_qx_line t d = toLowerL t ++ ',' :: d ∧
    renderQX tokens = joinNl (tokens.map fun p => to_qx_line p.1 p.2) ++ [ '\n' ] ∧
    renderQX [ (toL "DOMAIN-SUFFIX", toL "a.com"), (toL "CUSTOM-TAG", toL "b.com") ]
      = toL "host-suffix,a.com\ncustom-tag,b.com\n" := by
  refine ⟨rfl, rfl, rfl, rfl, ?_, rfl, by decide⟩
  have k1 : ¬ t = toL "DOMAIN-SUFFIX" := fun hh => hnot (by rw [hh]; decide)
  have k2 : ¬ t = toL "DOMAIN" := fun hh => hnot (by rw [hh]; decide)
  have k3 : ¬ t = toL "DOMAIN-KEYWORD" := fun hh => hnot (by rw [hh]; decide)
  have k4 : ¬ t = toL "DOMAIN-WILDCARD" := fun hh => hnot (by rw [hh]; decide)
  have hnone : qxMapping.lookup t = none := by
    simp only [qxMapping, List.lookup, beq_eq_false_iff_ne.mpr k1,
      beq_eq_false_iff_ne.mpr k2, beq_eq_false_iff_ne.mpr k3,
      beq_eq_false_iff_ne.mpr k4]
  rw [to_qx_line, hnone]

theorem c7_witness :
    (toL "CUSTOM-TAG" ∉ qxMapping.map Prod.fst) ∧
    to_qx_line (toL "CUSTOM-TAG") (toL "b.com")
      = toLowerL (toL "CUSTOM-TAG") ++ ',' :: toL "b.com" ∧
    renderQX [ (toL "DOMAIN-SUFFIX", toL "a.com"), (toL "CUSTOM-TAG", toL "b.com") ]
      = toL "host-suffix,a.com\ncustom-tag,b.com\n" := by
  have h := c7_qx_render
    [ (toL "DOMAIN-SUFFIX", toL "a.com"), (toL "CUSTOM-TAG", toL "b.com") ]
    (toL "CUSTOM-TAG") (toL "b.com") (by decide)
  exact ⟨by decide, h.2.2.2.2.1, h.2.2.2.2.2.2⟩

/-- C2: on a line surviving the bad-line test and comment stripping whose
remainder contains a comma, the remainder splits at its first comma; the
classifier rejects when the trimmed left part case-insensitively contains
one of the eight filter words, rejects when the trimmed domain begins
with one or more digits followed by a dot or a colon, and otherwise
returns `(uppercase(left), domain)`. -/
theorem c2_comma_branch (line : LChar)
    (h1 : (strip line).isEmpty = false)
    (h2 : is_bad_line (cleanLine line) = false)
    (h3 : (cleanLine line).contains ',' = true) :
    (cleanLine line = beforeComma (cleanLine line) ++ ',' :: afterComma (cleanLine line) ∧
      (',' : Char) ∉ beforeComma (cleanLine line)) ∧
    ((∃ p ∈ ipPatterns, p <:+: toUpperL (strip (beforeComma (cleanLine line)))) →
        extract_domain_token line = none) ∧
    ((DigitsThenP '.' (strip (afterComma (cleanLine line))) ∨
        DigitsThenP ':' (strip (afterComma (cleanLine line)))) →
        extract_domain_token line = none) ∧
    ((¬ ∃ p ∈ ipPatterns, p <:+: toUpperL (strip (beforeComma (cleanLine line)))) →
      (¬ (DigitsThenP '.' (strip (afterComma (cleanLine line))) ∨
          DigitsThenP ':' (strip (afterComma (cleanLine line))))) →
      extract_domain_token line =
        some (toUpperL (strip (beforeComma (cleanLine line))),
              strip (afterComma (cleanLine line)))) := by
  refine ⟨⟨comma_decomp _ (contains_iff_mem.mp h3), comma_not_mem_beforeComma _⟩, ?_, ?_, ?_⟩
  · intro hip
    have hb : (ipPatterns.any fun p =>
        containsSub p (toUpperL (strip (beforeComma (cleanLine line))))) = true := by
      rcases hip with ⟨p, hp, hinf⟩
      exact List.any_eq_true.mpr ⟨p, hp, (containsSub_iff _ _).mpr hinf⟩
    unfold extract_domain_token
    rw [h1, if_neg Bool.false_ne_true, h2, if_neg Bool.false_ne_true,
        h3, if_pos rfl, hb, if_pos rfl]
  · intro hd
    have hdb : (startDigitsThen '.' (strip (afterComma (cleanLine line))) ||
        startDigitsThen ':' (strip (afterComma (cleanLine line)))) = true := by
      rcases hd with hd | hd
      · simp [(startDigitsThen_iff _ _).mpr hd]
      · simp [(startDigitsThen_iff _ _).mpr hd]
    unfold extract_domain_token
    rw [h1, if_neg Bool.false_ne_true, h2, if_neg Bool.false_ne_true, h3, if_pos rfl]
    by_cases hip : (ipPatterns.any fun p =>
        containsSub p (toUpperL (strip (beforeComma (cleanLine line))))) = true
    · rw [hip, if_pos rfl]
    · have hipf : (ipPatterns.any fun p =>
          containsSub p (toUpperL (strip (beforeComma (cleanLine line))))) = false := by
        simpa using hip
      rw [hipf, if_neg Bool.false_ne_true, hdb, if_pos rfl]
  · intro hnip hnd
    have hipf : (ipPatterns.any fun p =>
        containsSub p (toUpperL (strip (beforeComma (cleanLine line))))) = false := by
      cases hany : (ipPatterns.any fun p =>
          containsSub p (toUpperL (strip (beforeComma (cleanLine line))))) with
      | false => rfl
      | true =>
        rcases List.any_eq_true.mp hany with ⟨p, hp, hc⟩
        exact absurd ⟨p, hp, (containsSub_iff _ _).mp hc⟩ hnip
    have hdf : (startDigitsThen '.' (strip (afterComma (cleanLine line))) ||
        startDigitsThen ':' (strip (afterComma (cleanLine line)))) = false := by
      cases hb2 : (startDigitsThen '.' (strip (afterComma (cleanLine line))) ||
          startDigitsThen ':' (strip (afterComma (cleanLine line)))) with
      | false => rfl
      | true =>
        rcases Bool.or_eq_true_iff.mp hb2 with hx | hx
        · exact absurd (Or.inl ((startDigitsThen_iff _ _).mp hx)) hnd
        · exact absurd (Or.inr ((startDigitsThen_iff _ _).mp hx)) hnd
    unfold extract_domain_token
    rw [h1, if_neg Bool.false_ne_true, h2, if_neg Bool.false_ne_true, h3, if_pos rfl,
        hipf, if_neg Bool.false_ne_true, hdf, if_neg Bool.false_ne_true]

theorem c2_witness :
    (strip (toL "DOMAIN-SUFFIX,example.com")).isEmpty = false ∧
    is_bad_line (cleanLine (toL "DOMAIN-SUFFIX,example.com")) = false ∧
    (cleanLine (toL "DOMAIN-SUFFIX,example.com")).contains ',' = true ∧
    ((¬ ∃ p ∈ ipPatterns,
        p <:+: toUpperL (strip (beforeComma (cleanLine (toL "DOMAIN-SUFFIX,example.com"))))) →
      (¬ (DigitsThenP '.' (strip (afterComma (cleanLine (toL "DOMAIN-SUFFIX,example.com")))) ∨
          DigitsThenP ':' (strip (afterComma (cleanLine (toL "DOMAIN-SUFFIX,example.com")))))) →
      extract_domain_token (toL "DOMAIN-SUFFIX,example.com") =
        some (toUpperL (strip (beforeComma (cleanLine (toL "DOMAIN-SUFFIX,example.com")))),
              strip (afterComma (cleanLine (toL "DOMAIN-SUFFIX,example.com"))))) :=
  ⟨by decide, by decide, by decide,
    (c2_comma_branch (toL "DOMAIN-SUFFIX,example.com")
      (by decide) (by decide) (by decide)).2.2.2⟩

/-! ### Round-trip support: splitting and re-assembling rendered output -/

theorem splitNl_no_nl (a : LChar) (ha : ('\n' : Char) ∉ a) : splitNl a = [ a ] := by
  induction a with
  | nil => rfl
  | cons c t ih =>
    have hc : ¬ c = '\n' := fun h => ha (by rw [h]; simp)
    have hcb : (c == '\n') = false := beq_eq_false_iff_ne.mpr hc
    simp only [splitNl, hcb, Bool.false_eq_true, if_false]
    rw [ih (fun hm => ha (List.mem_cons_of_mem _ hm))]

theorem splitNl_append_cons (a t : LChar) (ha : ('\n' : Char) ∉ a) :
    splitNl (a ++ '\n' :: t) = a :: splitNl t := by
  induction a with
  | nil =>
    rw [List.nil_append]
    simp [splitNl]
  | cons c r ih =>
    have hc : ¬ c = '\n' := fun h => ha (by rw [h]; simp)
    have hcb : (c == '\n') = false := beq_eq_false_iff_ne.mpr hc
    rw [List.cons_append]
    simp only [splitNl, hcb, Bool.false_eq_true, if_false]
    rw [ih (fun hm => ha (List.mem_cons_of_mem _ hm))]

theorem splitNl_joinNl (ls : List LChar) (h : ∀ l ∈ ls, ('\n' : Char) ∉ l) :
    (splitNl (joinNl ls ++ [ '\n' ])).filterMap classifyKeep
      = ls.filterMap classifyKeep := by
  induction ls with
  | nil => rfl
  | cons a rest ih =>
    cases rest with
    | nil =>
      have ha := h a (by simp)
      rw [show joinNl [ a ] = a from rfl,
          show a ++ [ '\n' ] = a ++ '\n' :: ([] : LChar) from rfl,
          splitNl_append_cons a [] ha]
      have hsplit : splitNl ([] : LChar) = [ ([] : LChar) ] := rfl
      have hnil : classifyKeep ([] : LChar) = none := rfl
      cases hca : classifyKeep a with
      | none => simp [List.filterMap_cons, hca, hsplit, hnil]
      | some v => simp [List.filterMap_cons, hca, hsplit, hnil]
    | cons b rest2 =>
      have ha := h a (by simp)
      rw [show joinNl (a :: b :: rest2) = a ++ '\n' :: joinNl (b :: rest2) from rfl,
          List.append_assoc, List.cons_append,
          splitNl_append_cons a _ ha,
          List.filterMap_cons, List.filterMap_cons,
          ih (fun l hl => h l (List.mem_cons_of_mem _ hl))]

theorem head_of_strip_self (l : LChar) (h : strip l = l) (c : Char)
    (hc : l.head? = some c) : isPySpace c = false :=
  head_strip l c (by rw [h]; exact hc)

theorem getLast_of_strip_self (l : LChar) (h : strip l = l) (c : Char)
    (hc : l.getLast? = some c) : isPySpace c = false :=
  getLast_strip l c (by rw [h]; exact hc)

theorem getLast?_append_cons (T : LChar) (c : Char) (d : LChar) :
    (T ++ c :: d).getLast? = (c :: d).getLast? := by
  rw [← List.head?_reverse, ← List.head?_reverse, List.reverse_append]
  cases hrev : (c :: d).reverse with
  | nil => exact absurd hrev (by simp)
  | cons x xs => rw [List.cons_append, List.head?_cons, List.head?_cons]

theorem strip_append_comma (T d : LChar) (hT : strip T = T) (hd : strip d = d) :
    strip (T ++ ',' :: d) = T ++ ',' :: d := by
  apply strip_eq_self
  · intro c hc
    cases T with
    | nil =>
      rw [List.nil_append, List.head?_cons] at hc
      injection hc with hc1
      rw [← hc1]
      rfl
    | cons a t =>
      rw [List.cons_append, List.head?_cons] at hc
      exact head_of_strip_self (a :: t) hT c (by rw [List.head?_cons]; exact hc)
  · intro c hc
    rw [getLast?_append_cons] at hc
    cases d with
    | nil =>
      rw [List.getLast?_singleton] at hc
      injection hc with hc1
      rw [← hc1]
      rfl
    | cons b t =>
      rw [List.getLast?_cons_cons] at hc
      exact getLast_of_strip_self (b :: t) hd c hc

theorem noCut_append_comma (T d : LChar) (hT : stripComment T = T)
    (hd : stripComment d = d) :
    stripComment (T ++ ',' :: d) = T ++ ',' :: d := by
  induction T with
  | nil =>
    rw [List.nil_append, noCut_cons_iff]
    refine ⟨?_, hd⟩
    simp [wsThenHash, isPySpace]
  | cons a t ih =>
    rw [noCut_cons_iff] at hT
    obtain ⟨hT1, hT2⟩ := hT
    rw [List.cons_append, noCut_cons_iff]
    refine ⟨?_, ih hT2⟩
    simp only [wsThenHash] at hT1 ⊢
    cases ha : isPySpace a with
    | false => rw [Bool.false_and]
    | true =>
      rw [ha, Bool.true_and] at hT1
      rw [Bool.true_and]
      rw [afterWs_append]
      by_cases hall : t.all isPySpace = true
      · rw [if_pos hall]
        simp [afterWs, isPySpace]
      · rw [if_neg hall]
        exact hT1

theorem cleanLine_subset (line : LChar) {c : Char} (hc : c ∈ cleanLine line) :
    c ∈ line :=
  (stripComment_pre line).subset ((strip_isInf (stripComment line)).subset hc)

/-- Structure of a token produced by `extract_domain_token`: both fields
are stripped, comment-stable, the rule type is comma-free and
uppercase-stable, and neither field introduces a newline absent from the
input line. -/
theorem extract_some_shape (line T d : LChar)
    (h : extract_domain_token line = some (T, d)) :
    strip T = T ∧ stripComment T = T ∧ strip d = d ∧ stripComment d = d ∧
      (',' : Char) ∉ T ∧ toUpperL T = T ∧
      (('\n' : Char) ∉ line → ('\n' : Char) ∉ T) ∧
      (('\n' : Char) ∉ line → ('\n' : Char) ∉ d) := by
  unfold extract_domain_token at h
  by_cases hE : ((strip line).isEmpty = true)
  · rw [if_pos hE] at h; cases h
  · rw [if_neg hE] at h
    by_cases hB : (is_bad_line (cleanLine line) = true)
    · rw [if_pos hB] at h; cases h
    · rw [if_neg hB] at h
      have hrc : stripComment (cleanLine line) = cleanLine line := cleanLine_noCut line
      by_cases hC : ((cleanLine line).contains ',' = true)
      · rw [if_pos hC] at h
        by_cases hip : (ipPatterns.any fun p =>
            containsSub p (toUpperL (strip (beforeComma (cleanLine line))))) = true
        · rw [if_pos hip] at h; cases h
        · rw [if_neg hip] at h
          by_cases hdg : (startDigitsThen '.' (strip (afterComma (cleanLine line))) ||
              startDigitsThen ':' (strip (afterComma (cleanLine line)))) = true
          · rw [if_pos hdg] at h; cases h
          · rw [if_neg hdg] at h
            injection h with h1
            injection h1 with hA hB2
            subst hA
            subst hB2
            have hleft : strip (beforeComma (cleanLine line)) <:+: cleanLine line :=
              (strip_isInf _).trans (beforeComma_pre (cleanLine line)).isInfix
            have hdom : strip (afterComma (cleanLine line)) <:+: cleanLine line :=
              (strip_isInf _).trans (afterComma_suf (cleanLine line)).isInfix
            refine ⟨strip_toUpperL _ (strip_idem _),
                    noCut_toUpper _ (noCut_of_inf _ _ hleft hrc),
                    strip_idem _,
                    noCut_of_inf _ _ hdom hrc, ?_, toUpperL_idem _, ?_, ?_⟩
            · intro hmem
              rcases List.mem_map.mp hmem with ⟨c0, hc0, hup⟩
              have hc0c : c0 = ',' := toUpper_eq_low c0 ',' (by decide) hup
              subst hc0c
              exact comma_not_mem_beforeComma (cleanLine line) ((strip_isInf _).subset hc0)
            · intro hnl hmem
              rcases List.mem_map.mp hmem with ⟨c0, hc0, hup⟩
              have hc0c : c0 = '\n' := toUpper_eq_low c0 '\n' (by decide) hup
              subst hc0c
              exact hnl (cleanLine_subset line (hleft.subset hc0))
            · intro hnl hmem
              exact hnl (cleanLine_subset line (hdom.subset hmem))
      · rw [if_neg hC] at h
        by_cases hsp : ((cleanLine line).contains ' ' || (cleanLine line).contains '/' ||
            (cleanLine line).contains ':') = true
        · rw [if_pos hsp] at h; cases h
        · rw [if_neg hsp] at h
          injection h with h1
          injection h1 with hA hB2
          subst hA
          subst hB2
          exact ⟨by decide, by decide, cleanLine_strip line, hrc, by decide, by decide,
                 fun _ hmem => absurd hmem (by decide),
                 fun hnl hmem => hnl (cleanLine_subset line hmem)⟩

/-- Re-classifying the Surge rendering of a previously classified token
either fails or reproduces exactly the same token. -/
theorem reclassify (line T d : LChar) (u : Token)
    (h : extract_domain_token line = some (T, d))
    (hu : extract_domain_token (T ++ ',' :: d) = some u) : u = (T, d) := by
  obtain ⟨hsT, hcT, hsd, hcd, hnc, hup, _, _⟩ := extract_some_shape line T d h
  have hclean : cleanLine (T ++ ',' :: d) = T ++ ',' :: d := by
    rw [cleanLine, noCut_append_comma T d hcT hcd]
    exact strip_append_comma T d hsT hsd
  have hbc : beforeComma (cleanLine (T ++ ',' :: d)) = T := by
    rw [hclean, beforeComma_append T d hnc]
  have hac : afterComma (cleanLine (T ++ ',' :: d)) = d := by
    rw [hclean, afterComma_append T d hnc]
  have hcontains : (cleanLine (T ++ ',' :: d)).contains ',' = true := by
    rw [hclean]; exact contains_comma_append T d
  have hne : (strip (T ++ ',' :: d)).isEmpty = false := by
    rw [strip_append_comma T d hsT hsd]
    cases T <;> rfl
  unfold extract_domain_token at hu
  rw [hne, if_neg Bool.false_ne_true] at hu
  by_cases hB : (is_bad_line (cleanLine (T ++ ',' :: d)) = true)
  · rw [if_pos hB] at hu; cases hu
  · rw [if_neg hB, hcontains, if_pos rfl, hbc, hac, hsT, hsd, hup] at hu
    by_cases hip : (ipPatterns.any fun p => containsSub p T) = true
    · rw [if_pos hip] at hu; cases hu
    · rw [if_neg hip] at hu
      by_cases hdg : (startDigitsThen '.' d || startDigitsThen ':' d) = true
      · rw [if_pos hdg] at hu; cases hu
      · rw [if_neg hdg] at hu
        injection hu with hu1
        exact hu1.symm

theorem extract_nl_free (line T d : LChar)
    (h : extract_domain_token line = some (T, d)) (hnl : ('\n' : Char) ∉ line) :
    ('\n' : Char) ∉ to_surge_line T d := by
  obtain ⟨_, _, _, _, _, _, hT, hd⟩ := extract_some_shape line T d h
  intro hmem
  unfold to_surge_line at hmem
  rcases List.mem_append.mp hmem with hm | hm
  · exact hT hnl hm
  · rcases List.mem_cons.mp hm with he | hm2
    · exact absurd he (by decide)
    · exact hd hnl hm2

theorem classifyKeep_some (line : LChar) (t : Token) (h : classifyKeep line = some t) :
    extract_domain_token line = some t := by
  unfold classifyKeep at h
  by_cases hb : is_bad_line line = true
  · rw [if_pos hb] at h; cases h
  · rwa [if_neg hb] at h

theorem mem_merge_origin (lines : List LChar) (t : Token) (ht : t ∈ mergeTokens lines) :
    ∃ line ∈ lines, classifyKeep line = some t := by
  have h2 : t ∈ lines.filterMap classifyKeep := (dedupAux_sub _ []).subset ht
  rcases List.mem_filterMap.mp h2 with ⟨line, hl, he⟩
  exact ⟨line, hl, he⟩

theorem filterMap_render_filter (M : List Token)
    (hM : ∀ t ∈ M, ∀ u, classifyKeep (to_surge_line t.1 t.2) = some u → u = t) :
    (M.map fun t => to_surge_line t.1 t.2).filterMap classifyKeep
      = M.filter fun t => (classifyKeep (to_surge_line t.1 t.2)).isSome := by
  induction M with
  | nil => rfl
  | cons t M' ih =>
    rw [List.map_cons, List.filterMap_cons, List.filter_cons]
    have ihh := ih (fun x hx u hu => hM x (List.mem_cons_of_mem _ hx) u hu)
    cases hct : classifyKeep (to_surge_line t.1 t.2) with
    | none =>
      simp only [Option.isSome_none, Bool.false_eq_true, if_false]
      exact ihh
    | some u =>
      have he := hM t (by simp) u hct
      subst he
      simp only [Option.isSome_some, if_true]
      exact congrArg (List.cons _) ihh

/-- C8 counterexample: for the input line
`domain,this_ruleset_is_made_by_sukkaw.ruleset.skk.moe` the merge output
holds one token, whose Surge rendering passes every heuristic listed in
the claim (no IP-type substring in the left part, no digit prefix on the
domain, no space, slash or colon in the rendered text outside the type
field), yet re-classifying the rendered output yields the empty token
set: the rendered line is dropped by the bad-pattern test, which the
claim's exception list does not include. -/
theorem c8_counterexample :
    mergeTokens [ toL "domain,this_ruleset_is_made_by_sukkaw.ruleset.skk.moe" ]
      = [ (toL "DOMAIN", toL "this_ruleset_is_made_by_sukkaw.ruleset.skk.moe") ] ∧
    (splitNl (renderSurge (mergeTokens
        [ toL "domain,this_ruleset_is_made_by_sukkaw.ruleset.skk.moe" ]))).filterMap
      classifyKeep = [] ∧
    (ipPatterns.any fun p => containsSub p (toUpperL (toL "DOMAIN"))) = false ∧
    startDigitsThen '.' (toL "this_ruleset_is_made_by_sukkaw.ruleset.skk.moe") = false ∧
    startDigitsThen ':' (toL "this_ruleset_is_made_by_sukkaw.ruleset.skk.moe") = false ∧
    (toL "this_ruleset_is_made_by_sukkaw.ruleset.skk.moe").contains ' ' = false ∧
    (toL "this_ruleset_is_made_by_sukkaw.ruleset.skk.moe").contains '/' = false ∧
    (toL "this_ruleset_is_made_by_sukkaw.ruleset.skk.moe").contains ':' = false ∧
    is_bad_line (to_surge_line (toL "DOMAIN")
      (toL "this_ruleset_is_made_by_sukkaw.ruleset.skk.moe")) = true :=
  ⟨by decide, by decide, by decide, by decide, by decide, by decide, by decide,
   by decide, by decide⟩

/-- C8 (amended): for newline-free raw lines, splitting the Surge
rendering of the merge result back into lines and re-classifying each
line reproduces the same token sequence, except for tokens whose
rendered line fails re-classification (through the bad-line test —
including the bad-pattern substrings — or the IP-type substring,
digit-prefix, space, slash, or colon heuristics); whenever a rendered
line does classify, it reproduces exactly its original token. -/
theorem c8_round_trip (lines : List LChar)
    (hnl : ∀ l ∈ lines, ('\n' : Char) ∉ l) :
    ((splitNl (renderSurge (mergeTokens lines))).filterMap classifyKeep
      = (mergeTokens lines).filter
          fun t => (classifyKeep (to_surge_line t.1 t.2)).isSome) ∧
    (∀ t ∈ mergeTokens lines, ∀ u,
        classifyKeep (to_surge_line t.1 t.2) = some u → u = t) := by
  have hkey : ∀ t ∈ mergeTokens lines, ∀ u,
      classifyKeep (to_surge_line t.1 t.2) = some u → u = t := by
    intro t ht u hu
    rcases mem_merge_origin lines t ht with ⟨line, _, hcl⟩
    exact reclassify line t.1 t.2 u (classifyKeep_some line t hcl)
      (classifyKeep_some _ _ hu)
  refine ⟨?_, hkey⟩
  have hrender : ∀ l ∈ (mergeTokens lines).map (fun t => to_surge_line t.1 t.2),
      ('\n' : Char) ∉ l := by
    intro l hl
    rcases List.mem_map.mp hl with ⟨t, ht, rfl⟩
    rcases mem_merge_origin lines t ht with ⟨line, hline, hcl⟩
    exact extract_nl_free line t.1 t.2 (classifyKeep_some line t hcl) (hnl line hline)
  unfold renderSurge
  rw [splitNl_joinNl _ hrender]
  exact filterMap_render_filter _ hkey

theorem c8_witness :
    (∀ l ∈ [ toL "DOMAIN-SUFFIX,ok.com", toL "123.with.digits" ], ('\n' : Char) ∉ l) ∧
    ((splitNl (renderSurge (mergeTokens
        [ toL "DOMAIN-SUFFIX,ok.com", toL "123.with.digits" ]))).filterMap classifyKeep
      = (mergeTokens [ toL "DOMAIN-SUFFIX,ok.com", toL "123.with.digits" ]).filter
          fun t => (classifyKeep (to_surge_line t.1 t.2)).isSome) ∧
    (∀ t ∈ mergeTokens [ toL "DOMAIN-SUFFIX,ok.com", toL "123.with.digits" ], ∀ u,
        classifyKeep (to_surge_line t.1 t.2) = some u → u = t) := by
  have h := c8_round_trip [ toL "DOMAIN-SUFFIX,ok.com", toL "123.with.digits" ]
    (by decide)
  exact ⟨by decide, h.1, h.2⟩

end ProcessRules
